import Mathlib

/-!
Verification of the cryptographic and transport core of a three-party IPA
helper: Lagrange interpolation, the distributed ZKP verifier, PRSS
generation, the report codec and the stream collection.
-/

namespace RawIpa

/-! ## Lagrange interpolation (component C2 of the design)

The verifier (`verifier.rs`) calls into the `lagrange` module, whose source
is not part of the reviewed tree; the definitions in this section are
modelled from the spec. -/

/-- Modelled from the spec: `CanonicalLagrangeDenominator` from the missing
`lagrange.rs`. `D[i] = Π_{j≠i} (i − j)⁻¹` with `i, j ∈ {0,…,N−1}`. -/
def canonicalLagrangeDenominator (F : Type*) [Field F] (N i : ℕ) : F :=
  ∏ j ∈ (Finset.range N).erase i, (((i : F) - (j : F)))⁻¹

/-- Modelled from the spec: one entry of `LagrangeTable<N,1>` at the single
evaluation point `r`: `T[i] = D[i] · Π_{j≠i} (r − j)`. -/
def lagrangeTableEntry (F : Type*) [Field F] (N : ℕ) (r : F) (i : ℕ) : F :=
  canonicalLagrangeDenominator F N i * ∏ j ∈ (Finset.range N).erase i, (r - (j : F))

/-- Modelled from the spec: `LagrangeTable::eval` with a single evaluation
point: `Σᵢ yᵢ · T[i]`. -/
def lagrangeEval (F : Type*) [Field F] (N : ℕ) (r : F) (y : ℕ → F) : F :=
  ∑ i ∈ Finset.range N, y i * lagrangeTableEntry F N r i

/-- `GF(31)`, the small test field `Fp31` of the repository. -/
instance fact_prime_31 : Fact (Nat.Prime 31) := ⟨by norm_num⟩

/-! ## ZKP verifier (`verifier.rs`, `ProofVerifier`) -/

/-- `ProofVerifier::verify_proof` from `verifier.rs`. The `zkp` array of
length `P` is embedded as a function on indices. Returns the pair
`(g_r_share, zero_share)`, i.e. the new `out_share` together with the
`zero_share` carried by the returned `ProofVerifier`. -/
def verify_proof (F : Type*) [Field F] (lam P : ℕ) (out_share : F) (zkp : ℕ → F)
    (r : F) : F × F :=
  let g_r_share := lagrangeEval F P r zkp
  let sum_share := (List.range lam).foldl (fun acc i => acc + zkp i) 0
  let zero_share := sum_share - out_share
  (g_r_share, zero_share)

/-- The `for polynomial in u_or_v_iterator` loop of
`ProofVerifier::recurse_u_or_v`, with the loop state
`(new_u_or_v_vec, new_u_or_v_chunk, index)` passed explicitly, followed by
the final `if index > 0` flush. -/
def recurseLoop (F : Type*) [Field F] (lam : ℕ) (r : F) :
    List (List F) → List (List F) → List F → ℕ → List (List F)
  | [], vec, chunk, index => if 0 < index then vec ++ [chunk] else vec
  | c :: rest, vec, chunk, index =>
    let value := lagrangeEval F lam r (fun i => c.getD i 0)
    if lam ≤ index then
      recurseLoop F lam r rest (vec ++ [chunk]) ((List.replicate lam 0).set 0 value) 1
    else
      recurseLoop F lam r rest vec (chunk.set index value) (index + 1)

/-- `ProofVerifier::recurse_u_or_v` from `verifier.rs`: compress the
`u_or_v` chunks by evaluating each at `r` and regrouping into chunks of
`lam`, the last chunk zero-padded. -/
def recurse_u_or_v (F : Type*) [Field F] (lam : ℕ) (chunks : List (List F))
    (r : F) : List (List F) :=
  recurseLoop F lam r chunks [] (List.replicate lam 0) 0

/-- Repacking helper used to reason about `recurseLoop`: starting from a
partially filled `chunk` whose next free slot is `index`, write the values
`vs` into consecutive slots, emitting a chunk each time one fills up, and
flush the trailing chunk. -/
def fillFrom (F : Type*) [Field F] (lam : ℕ) : List F → ℕ → List F → List (List F)
  | chunk, _, [] => [chunk]
  | chunk, index, v :: vs =>
    if lam ≤ index then
      chunk :: fillFrom F lam ((List.replicate lam 0).set 0 v) 1 vs
    else
      fillFrom F lam (chunk.set index v) (index + 1) vs

/-! ## PRSS (`prss/crypto.rs`) -/

/-- The pair of per-peer randomness sources held by one helper
(`SharedRandomness::generate_values`): the `u128` produced with the
generator shared with the left helper and the one shared with the right
helper, at a given index. -/
structure SharedRandomness where
  leftGen : ℕ → ℕ
  rightGen : ℕ → ℕ

/-- `SharedRandomness::generate_fields` (via `FromPrss` for pairs):
apply `from_random_u128` to the left and right `u128` values. -/
def SharedRandomness.generate_fields {V : Type*} (fromRandomU128 : ℕ → V)
    (p : SharedRandomness) (index : ℕ) : V × V :=
  (fromRandomU128 (p.leftGen index), fromRandomU128 (p.rightGen index))

/-- `SharedRandomness::zero` from `crypto.rs`: `let (l, r) = self.generate(index); l - r`. -/
def SharedRandomness.zero {V : Type*} [Sub V] (fromRandomU128 : ℕ → V)
    (p : SharedRandomness) (index : ℕ) : V :=
  (SharedRandomness.generate_fields fromRandomU128 p index).1
    - (SharedRandomness.generate_fields fromRandomU128 p index).2

/-- `u128::to_le_bytes`: the 16 little-endian bytes of a `u128`. -/
def u128_to_le_bytes (x : ℕ) : List ℕ :=
  (List.range 16).map fun i => x / 2 ^ (8 * i) % 256

/-- `u128::from_le_bytes`: reassemble a `u128` from 16 little-endian bytes. -/
def u128_from_le_bytes (bs : List ℕ) : ℕ :=
  ∑ i ∈ Finset.range 16, bs.getD i 0 * 2 ^ (8 * i)

/-- The PRSS `Generator` of `crypto.rs`. Modelled from the spec: the held
AES-256 cipher (the `aes` crate is external to the tree) is abstracted as
its block-encryption function on 16-byte blocks. -/
structure Generator where
  cipher : List ℕ → List ℕ

/-- `Generator::generate` from `crypto.rs`: encrypt the little-endian
encoding of `index` in place, reinterpret little-endian, and XOR with
`index` (the MMO construction). -/
def Generator.generate (g : Generator) (index : ℕ) : ℕ :=
  let buf := u128_to_le_bytes index
  let buf2 := g.cipher buf
  Nat.xor (u128_from_le_bytes buf2) index

/-- The spec's description of generation: `G.generate(idx) = AES_k(LE(idx))
XOR LE(idx)` interpreted as a little-endian `u128` (Matyas–Meyer–Oseas). -/
def mmoSpec (aes : List ℕ → List ℕ) (idx : ℕ) : ℕ :=
  Nat.xor (u128_from_le_bytes (aes (u128_to_le_bytes idx))) idx

/-- `KeyExchange` from `crypto.rs`. Modelled from the spec: the X25519
ephemeral secret (`x25519_dalek` is external to the tree) is abstracted as
a natural number. -/
structure KeyExchange where
  sk : ℕ

/-- `KeyExchange::public_key`, with the X25519 basepoint multiplication
passed as the abstract function `basepointMul`. -/
def KeyExchange.public_key (basepointMul : ℕ → ℕ) (kx : KeyExchange) : ℕ :=
  basepointMul kx.sk

/-- `KeyExchange::key_exchange` from `crypto.rs`: a `debug_assert_ne!`
guard against a self key-exchange (active only when the build carries
debug assertions), then Diffie–Hellman with the peer key and an
HKDF-SHA256 extractor with no salt. The Diffie–Hellman function and the
HKDF extractor (salt, input-keying-material) are abstract parameters;
`none` models the panic of the debug assertion. -/
def KeyExchange.key_exchange (debugAssertions : Bool) (basepointMul : ℕ → ℕ)
    (dh : ℕ → ℕ → ℕ) (hkdf : Option (List ℕ) → ℕ → ℕ)
    (kx : KeyExchange) (pk : ℕ) : Option ℕ :=
  if debugAssertions ∧ pk = KeyExchange.public_key basepointMul kx then none
  else some (hkdf none (dh kx.sk pk))

/-! ## Report codec (`report.rs`) -/

/-- Little-endian encoding of `x` over `n` bytes (`to_le_bytes`). -/
def leBytes (n x : ℕ) : List ℕ :=
  (List.range n).map fun i => x / 2 ^ (8 * i) % 256

/-- Little-endian reassembly of a byte list (`from_le_bytes`). -/
def fromLEBytes : List ℕ → ℕ
  | [] => 0
  | b :: rest => b + 256 * fromLEBytes rest

/-- `EventType` from `report.rs`. -/
inductive EventType where
  | trigger
  | source
deriving DecidableEq

/-- `TryFrom<u8> for EventType`: 0 is a source event, 1 a trigger event,
anything else is a `ParseEventTypeError`. -/
def eventTypeFromByte : ℕ → Option EventType
  | 0 => some .source
  | 1 => some .trigger
  | _ => none

/-- `From<&EventType> for u8`. -/
def eventTypeToByte : EventType → ℕ
  | .source => 0
  | .trigger => 1

/-- The specialized report of `report.rs`
(`Report<Fp32BitPrime, Gf40Bit, Gf8Bit>`), with field and Galois-field
elements as bounded naturals and the site domain as its ASCII bytes. -/
structure Report where
  timestamp : ℕ
  mk_shares : ℕ × ℕ
  event_type : EventType
  breakdown_key : ℕ
  trigger_value : ℕ × ℕ
  epoch : ℕ
  site_domain : List ℕ
deriving DecidableEq

/-- Modelled from the spec: serialization of a replicated share
(`Serializable for AdditiveShare`, outside the tree) is the little-endian
bytes of the left share followed by those of the right share, each over
`w` bytes. -/
def serializeReplicated (w : ℕ) (sh : ℕ × ℕ) : List ℕ :=
  leBytes w sh.1 ++ leBytes w sh.2

/-- Modelled from the spec: deserialization of a replicated share. -/
def deserializeReplicated (w : ℕ) (bs : List ℕ) : ℕ × ℕ :=
  (fromLEBytes (bs.take w), fromLEBytes ((bs.drop w).take w))

/-- The helper-origin domain-separation string of `report.rs`. -/
def helperOrigin : List ℕ :=
  "github.com/private-attribution".data.map Char.toNat

/-- Modelled from the spec: the HPKE `Info` of the missing `hpke` module —
domain-separation data binding key id, epoch, event type, helper origin
and site domain. -/
structure Info where
  key_id : ℕ
  epoch : ℕ
  event_type : EventType
  helper_origin : List ℕ
  site_domain : List ℕ
deriving DecidableEq

/-- Modelled from the spec: `Info::new` (missing `hpke` module) validates
that the origin and the site domain are pure ASCII and otherwise raises
`NonAsciiString`. -/
def Info.new (kid ep : ℕ) (et : EventType) (origin domain : List ℕ) : Option Info :=
  if origin.all (· < 128) && domain.all (· < 128) then
    some ⟨kid, ep, et, origin, domain⟩
  else none

/-- `Report::encrypt_to` from `report.rs`: build the `Info`, serialize the
match-key shares, seal them, and emit the §6 byte layout. The HPKE
`seal_in_place` (missing `hpke` module) is the abstract parameter `sealIP`,
mapping registry, info, plaintext and randomness to
`(encap_key, ciphertext, tag)` or a `CryptError` (`none`). -/
def encrypt_to (sealIP : ℕ → Info → List ℕ → ℕ → Option (List ℕ × List ℕ × List ℕ))
    (r : Report) (key_id key_registry rng : ℕ) : Option (List ℕ) :=
  match Info.new key_id r.epoch r.event_type helperOrigin r.site_domain with
  | none => none
  | some info =>
    match sealIP key_registry info (serializeReplicated 5 r.mk_shares) rng with
    | none => none
    | some (encap_key, ciphertext, tag) =>
      some (leBytes 4 r.timestamp
        ++ leBytes 1 r.breakdown_key
        ++ serializeReplicated 4 r.trigger_value
        ++ encap_key ++ ciphertext ++ tag
        ++ [eventTypeToByte r.event_type] ++ [key_id]
        ++ leBytes 2 r.epoch ++ r.site_domain)

/-- Modelled from the spec: the size of the HPKE encapsulated key —
32 bytes for X25519. -/
def encapSize : ℕ := 32

/-- Modelled from the spec: `CiphertextSize` for `Gf40Bit` match keys —
the 10-byte serialized replicated share plus the 16-byte AEAD tag (this
matches the 85-byte test vector of `report.rs`). -/
def ciphertextSize : ℕ := 26

/-- `EncryptedReport::CIPHERTEXT_OFFSET`. -/
def ciphertextOffset : ℕ := 13 + encapSize

/-- `EncryptedReport::EVENT_TYPE_OFFSET`. -/
def eventTypeOffset : ℕ := ciphertextOffset + ciphertextSize

/-- `EncryptedReport::SITE_DOMAIN_OFFSET`. -/
def siteDomainOffset : ℕ := eventTypeOffset + 4

/-- The errors of `InvalidReportError` raised by `from_bytes`. -/
inductive InvalidReport where
  | badEventType (v : ℕ)
  | nonAsciiString
deriving DecidableEq

/-- Outcome of `EncryptedReport::from_bytes`: an out-of-bounds index or
slice (a Rust panic), an `InvalidReportError`, or success. -/
inductive ParseOutcome where
  | panicked
  | err (e : InvalidReport)
  | ok
deriving DecidableEq

/-- `EncryptedReport::from_bytes` from `report.rs`: index the event-type
byte (panicking when absent), validate it, then slice the site domain
(panicking when the buffer ends before the slice start) and validate it
as ASCII. -/
def from_bytes (bytes : List ℕ) : ParseOutcome :=
  if eventTypeOffset < bytes.length then
    match eventTypeFromByte (bytes.getD eventTypeOffset 0) with
    | none => .err (.badEventType (bytes.getD eventTypeOffset 0))
    | some _ =>
      if siteDomainOffset ≤ bytes.length then
        if (bytes.drop siteDomainOffset).all (· < 128) then .ok
        else .err .nonAsciiString
      else .panicked
  else .panicked

/-- Classification of a UTF-8 lead byte: `none` for an invalid lead byte,
otherwise the number of continuation bytes together with the allowed range
of the first continuation byte (excluding overlong forms and surrogates). -/
def utf8Need (b : ℕ) : Option (ℕ × ℕ × ℕ) :=
  if b < 0x80 then some (0, 0, 0)
  else if 0xC2 ≤ b ∧ b ≤ 0xDF then some (1, 0x80, 0xBF)
  else if b = 0xE0 then some (2, 0xA0, 0xBF)
  else if (0xE1 ≤ b ∧ b ≤ 0xEC) ∨ b = 0xEE ∨ b = 0xEF then some (2, 0x80, 0xBF)
  else if b = 0xED then some (2, 0x80, 0x9F)
  else if b = 0xF0 then some (3, 0x90, 0xBF)
  else if 0xF1 ≤ b ∧ b ≤ 0xF3 then some (3, 0x80, 0xBF)
  else if b = 0xF4 then some (3, 0x80, 0x8F)
  else none

/-- The UTF-8 validation automaton: `k` pending continuation bytes, the
next of which must lie in `[lo, hi]`. -/
def validUtf8From : ℕ → ℕ → ℕ → List ℕ → Bool
  | 0, _, _, [] => true
  | 0, _, _, b :: rest =>
    match utf8Need b with
    | none => false
    | some (k, lo, hi) => validUtf8From k lo hi rest
  | _ + 1, _, _, [] => false
  | k + 1, lo, hi, c :: rest =>
    if lo ≤ c ∧ c ≤ hi then validUtf8From k 0x80 0xBF rest else false

/-- UTF-8 validity of a byte sequence, as checked by
`std::str::from_utf8` in the `site_domain` accessor. -/
def validUtf8 (bs : List ℕ) : Bool := validUtf8From 0 0 0 bs

/-- `EncryptedReport::timestamp`. -/
def timestampAcc (d : List ℕ) : ℕ := fromLEBytes (d.take 4)

/-- `EncryptedReport::breakdown_key`. -/
def breakdown_keyAcc (d : List ℕ) : ℕ := d.getD 4 0

/-- `EncryptedReport::trigger_value`. -/
def trigger_valueAcc (d : List ℕ) : ℕ × ℕ := deserializeReplicated 4 (d.drop 5)

/-- `EncryptedReport::encap_key`. -/
def encap_keyAcc (d : List ℕ) : List ℕ := (d.drop 13).take encapSize

/-- `EncryptedReport::match_key_ciphertext`. -/
def match_key_ciphertextAcc (d : List ℕ) : List ℕ :=
  (d.drop ciphertextOffset).take ciphertextSize

/-- `EncryptedReport::event_type` (the `.unwrap()` is `none` when the
stored byte is invalid). -/
def event_typeAcc (d : List ℕ) : Option EventType :=
  eventTypeFromByte (d.getD eventTypeOffset 0)

/-- `EncryptedReport::key_id`. -/
def key_idAcc (d : List ℕ) : ℕ := d.getD (eventTypeOffset + 1) 0

/-- `EncryptedReport::epoch`. -/
def epochAcc (d : List ℕ) : ℕ :=
  fromLEBytes ((d.drop (eventTypeOffset + 2)).take 2)

/-- `EncryptedReport::site_domain` (the `.unwrap()` of
`std::str::from_utf8` is `none` on invalid UTF-8). -/
def site_domainAcc (d : List ℕ) : Option (List ℕ) :=
  if validUtf8 (d.drop siteDomainOffset) then some (d.drop siteDomainOffset) else none

/-- `EncryptedReport::decrypt` from `report.rs`: rebuild the `Info` from
the stored fields, open the match-key ciphertext, and assemble the
decrypted report. The HPKE `open_in_place` (missing `hpke` module) is the
abstract parameter `openIP`, mapping registry, encapsulated key,
ciphertext-with-tag and info to the plaintext or a `CryptError`
(`none`). -/
def decrypt (openIP : ℕ → List ℕ → List ℕ → Info → Option (List ℕ))
    (d : List ℕ) (key_registry : ℕ) : Option Report :=
  match event_typeAcc d, site_domainAcc d with
  | some et, some dom =>
    match Info.new (key_idAcc d) (epochAcc d) et helperOrigin dom with
    | none => none
    | some info =>
      match openIP key_registry (encap_keyAcc d) (match_key_ciphertextAcc d) info with
      | none => none
      | some plaintext =>
        some { timestamp := timestampAcc d
               mk_shares := deserializeReplicated 5 plaintext
               event_type := et
               breakdown_key := breakdown_keyAcc d
               trigger_value := trigger_valueAcc d
               epoch := epochAcc d
               site_domain := dom }
  | _, _ => none

/-- Validity of a report: all numeric fields within their wire ranges
(`Fp32BitPrime` values below `2³² − 5`, `Gf40Bit` shares below `2⁴⁰`,
`Gf8Bit` below `2⁸`), and a pure-ASCII site domain. -/
def Report.valid (r : Report) : Prop :=
  r.timestamp < 2 ^ 32 ∧ r.breakdown_key < 2 ^ 8
    ∧ r.mk_shares.1 < 2 ^ 40 ∧ r.mk_shares.2 < 2 ^ 40
    ∧ r.trigger_value.1 < 2 ^ 32 - 5 ∧ r.trigger_value.2 < 2 ^ 32 - 5
    ∧ r.epoch < 2 ^ 16 ∧ ∀ b ∈ r.site_domain, b < 128

/-! ## Stream collection (`test_fixture/network/transport.rs`) -/

/-- The lifecycle of a records stream inside `StreamCollection`. -/
inductive RecordsStream (S W : Type*) where
  | waiting (w : W)
  | ready (s : S)
  | completed

/-- Result of one `StreamCollection` operation: either the operation
panicked with a message, or it returned a value. -/
inductive StepResult (α : Type*) where
  | panicked (msg : String)
  | ok (a : α)

/-- `StreamCollection::add_stream` from `transport.rs`, acting on the
map held under the mutex (`keyRepr` stands for the `Debug` rendering of a
key). -/
def add_stream {K S W : Type*} [DecidableEq K] (keyRepr : K → String)
    (m : K → Option (RecordsStream S W)) (key : K) (stream : S) :
    StepResult (K → Option (RecordsStream S W)) :=
  match m key with
  | some (.waiting _) => .ok (Function.update m key (some (.ready stream)))
  | some (.ready _) =>
      .panicked (keyRepr key ++ " entry state expected to be waiting, got \"Ready\"")
  | some .completed =>
      .panicked (keyRepr key ++ " entry state expected to be waiting, got \"Completed\"")
  | none => .ok (Function.update m key (some (.ready stream)))

/-- `StreamCollection::add_waker` from `transport.rs`: returns the updated
map together with the taken stream, if any. -/
def add_waker {K S W : Type*} [DecidableEq K] (keyRepr : K → String)
    (willWake : W → W → Bool) (m : K → Option (RecordsStream S W)) (key : K)
    (w : W) : StepResult ((K → Option (RecordsStream S W)) × Option S) :=
  match m key with
  | some (.waiting old) =>
      if willWake old w then .ok (m, none)
      else .panicked "assertion failed: will_wake"
  | some (.ready s) => .ok (Function.update m key (some .completed), some s)
  | some .completed => .panicked (keyRepr key ++ " stream has been consumed already")
  | none => .ok (Function.update m key (some (.waiting w)), none)

/-- Position of a cell along the lifecycle
`Vacant → {Waiting, Ready} → Completed`. -/
def cellRank {S W : Type*} : Option (RecordsStream S W) → ℕ
  | none => 0
  | some (.waiting _) => 1
  | some (.ready _) => 2
  | some .completed => 3

end RawIpa

namespace RawIpa

/-- In `GF(31)` the field inverse agrees with the 29th power; this gives the
kernel an executable route to the inverse. -/
theorem zmod31_inv_eq_pow (a : ZMod 31) : a⁻¹ = a ^ 29 := by
  rcases eq_or_ne a 0 with rfl | h
  · simp
  · have h30 : a ^ 30 = 1 := ZMod.pow_card_sub_one_eq_one h
    have hmul : a * a ^ 29 = 1 := by
      rw [← pow_succ']
      exact h30
    exact inv_eq_of_mul_eq_one_right hmul

/-! ## Helper lemmas -/

/-- The Rust fold `(0..λ).fold(F::ZERO, |acc, i| acc + zkp[i])` is the sum of
the first `lam` values. -/
theorem foldl_add_range {F : Type*} [AddCommMonoid F] (f : ℕ → F) :
    ∀ (n : ℕ) (init : F),
      (List.range n).foldl (fun acc i => acc + f i) init = init + ∑ i ∈ Finset.range n, f i := by
  intro n
  induction n with
  | zero => intro init; simp
  | succ n ih =>
    intro init
    rw [List.range_succ, List.foldl_append, ih, Finset.sum_range_succ]
    simp [add_assoc]

/-- Pairwise distinctness of the first `P` nodes gives injectivity of the
nodal map on `Finset.range P`. -/
theorem injOn_cast_range {F : Type*} [AddGroupWithOne F] (P : ℕ)
    (h : ∀ i < P, ∀ j < P, (i : F) = (j : F) → i = j) :
    Set.InjOn (Nat.cast : ℕ → F) (Finset.range P) := by
  intro i hi j hj hij
  exact h i (Finset.mem_range.mp hi) j (Finset.mem_range.mp hj) hij

/-- The computational Lagrange evaluation agrees with the evaluation of any
polynomial of degree `< P` passing through the given values at the nodes
`0, …, P−1`, provided those nodes are distinct in `F`. -/
theorem lagrangeEval_eq_polyEval (F : Type*) [Field F] (P : ℕ) (r : F) (y : ℕ → F)
    (hInj : Set.InjOn (Nat.cast : ℕ → F) (Finset.range P))
    (g : Polynomial F) (hdeg : g.degree < (P : ℕ))
    (hval : ∀ i < P, g.eval (i : F) = y i) :
    lagrangeEval F P r y = g.eval r := by
  have hg : g = Lagrange.interpolate (Finset.range P) (Nat.cast : ℕ → F) y := by
    refine Lagrange.eq_interpolate_of_eval_eq y hInj ?_ ?_
    · simpa [Finset.card_range] using hdeg
    · intro i hi
      exact hval i (Finset.mem_range.mp hi)
  conv_rhs => rw [hg]
  rw [Lagrange.interpolate_apply, Polynomial.eval_finset_sum]
  unfold lagrangeEval lagrangeTableEntry canonicalLagrangeDenominator
  refine Finset.sum_congr rfl fun i _ => ?_
  have hb : Polynomial.eval r (Lagrange.basis (Finset.range P) (Nat.cast : ℕ → F) i)
      = (∏ j ∈ (Finset.range P).erase i, (((i : F) - (j : F)))⁻¹)
        * ∏ j ∈ (Finset.range P).erase i, (r - (j : F)) := by
    simp only [Lagrange.basis, Lagrange.basisDivisor, Polynomial.eval_prod,
      Polynomial.eval_mul, Polynomial.eval_sub, Polynomial.eval_C, Polynomial.eval_X]
    rw [← Finset.prod_mul_distrib]
  rw [Polynomial.eval_mul, Polynomial.eval_C, hb]

/-! ## List helpers for the `recurse_u_or_v` analysis -/

theorem getD_replicate_zero {α : Type*} [Zero α] (n k : ℕ) :
    (List.replicate n (0 : α)).getD k 0 = 0 := by
  rcases Nat.lt_or_ge k n with h | h
  · rw [List.getD_eq_getElem _ _ (by simpa using h)]
    simp
  · rw [List.getD_eq_default _ _ (by simpa using h)]

theorem getD_set_ne {α : Type*} [Zero α] (l : List α) (i : ℕ) (v : α) (k : ℕ)
    (h : k ≠ i) : (l.set i v).getD k 0 = l.getD k 0 := by
  simp [List.getD_eq_getElem?_getD, List.getElem?_set_ne (Ne.symm h)]

theorem take_set_succ {α : Type*} (v : α) :
    ∀ (l : List α) (i : ℕ), i < l.length → (l.set i v).take (i + 1) = l.take i ++ [v] := by
  intro l
  induction l with
  | nil => intro i h; simp at h
  | cons a t ih =>
    intro i h
    cases i with
    | zero => simp
    | succ i =>
      simp only [List.set_cons_succ, List.take_succ_cons, List.cons_append]
      rw [ih i (by simpa using Nat.lt_of_succ_lt_succ h)]

/-- A list of length `lam` that is zero from position `index` on splits as
its first `index` entries followed by zeros. -/
theorem eq_take_append_replicate {α : Type*} [Zero α] (l : List α) (lam index : ℕ)
    (hlen : l.length = lam) (hz : ∀ k, index ≤ k → l.getD k 0 = 0) :
    l = l.take index ++ List.replicate (lam - index) 0 := by
  conv_lhs => rw [← List.take_append_drop index l]
  congr 1
  rw [List.eq_replicate_iff]
  constructor
  · simp [hlen]
  · intro b hb
    obtain ⟨k, hk, hbk⟩ := List.mem_iff_getElem.mp hb
    rw [List.length_drop] at hk
    have hk' : index + k < l.length := by omega
    have := hz (index + k) (Nat.le_add_right _ _)
    rw [List.getD_eq_getElem _ _ hk'] at this
    rw [← hbk]
    simpa [List.getElem_drop] using this

/-! ## Behaviour of `fillFrom` and `recurseLoop` -/

/-- `recurseLoop` with a started chunk is `fillFrom` over the evaluated
values, appended to the accumulated output. -/
theorem recurseLoop_eq_fillFrom (F : Type*) [Field F] (lam : ℕ) (r : F) :
    ∀ (cs vec : List (List F)) (chunk : List F) (index : ℕ), 1 ≤ index →
      recurseLoop F lam r cs vec chunk index
        = vec ++ fillFrom F lam chunk index
            (cs.map fun c => lagrangeEval F lam r fun i => c.getD i 0) := by
  intro cs
  induction cs with
  | nil =>
    intro vec chunk index h
    simp [recurseLoop, fillFrom, Nat.lt_of_lt_of_le Nat.zero_lt_one h]
  | cons c rest ih =>
    intro vec chunk index h
    simp only [recurseLoop, List.map_cons, fillFrom]
    by_cases hc : lam ≤ index
    · rw [if_pos hc, if_pos hc, ih _ _ 1 le_rfl, List.append_assoc, List.singleton_append]
    · rw [if_neg hc, if_neg hc, ih _ _ (index + 1) (by omega)]

/-- Every chunk emitted by `fillFrom` has length `lam`. -/
theorem fillFrom_chunk_lengths (F : Type*) [Field F] (lam : ℕ) :
    ∀ (vs chunk : List F) (index : ℕ), chunk.length = lam →
      ∀ c ∈ fillFrom F lam chunk index vs, c.length = lam := by
  intro vs
  induction vs with
  | nil =>
    intro chunk index h c hc
    simp only [fillFrom, List.mem_singleton] at hc
    exact hc ▸ h
  | cons v vs ih =>
    intro chunk index h c hc
    simp only [fillFrom] at hc
    by_cases hge : lam ≤ index
    · rw [if_pos hge] at hc
      rcases List.mem_cons.mp hc with rfl | hm
      · exact h
      · exact ih _ _ (by simp) c hm
    · rw [if_neg hge] at hc
      exact ih _ _ (by simp [h]) c hc

/-- The number of chunks emitted by `fillFrom`. -/
theorem fillFrom_length (F : Type*) [Field F] (lam : ℕ) :
    ∀ (vs chunk : List F) (index : ℕ), 1 ≤ index → index ≤ lam →
      (fillFrom F lam chunk index vs).length = (index + vs.length + lam - 1) / lam := by
  intro vs
  induction vs with
  | nil =>
    intro chunk index h1 h2
    have hlam : 0 < lam := Nat.lt_of_lt_of_le (Nat.lt_of_lt_of_le Nat.zero_lt_one h1) h2
    simp only [fillFrom, List.length_singleton, List.length_nil, Nat.add_zero]
    exact (Nat.div_eq_of_lt_le (by omega) (by omega)).symm
  | cons v vs ih =>
    intro chunk index h1 h2
    have hlam : 0 < lam := Nat.lt_of_lt_of_le (Nat.lt_of_lt_of_le Nat.zero_lt_one h1) h2
    simp only [fillFrom, List.length_cons]
    by_cases hge : lam ≤ index
    · have hidx : index = lam := Nat.le_antisymm h2 hge
      rw [if_pos hge, List.length_cons, ih _ 1 le_rfl (by omega), hidx]
      have e1 : 1 + vs.length + lam - 1 = vs.length + lam := by omega
      have e2 : lam + (vs.length + 1) + lam - 1 = vs.length + lam + lam := by omega
      rw [e1, e2, Nat.add_div_right _ hlam, Nat.add_div_right _ hlam,
        Nat.add_div_right _ hlam]
    · rw [if_neg hge, ih _ (index + 1) (by omega) (by omega)]
      congr 1
      omega

/-- The flattened output of `fillFrom` is the already written prefix of the
current chunk, then the supplied values, then zero padding. -/
theorem fillFrom_flatten (F : Type*) [Field F] (lam : ℕ) (h0 : 0 < lam) :
    ∀ (vs chunk : List F) (index : ℕ), 1 ≤ index → chunk.length = lam →
      (∀ k, index ≤ k → chunk.getD k 0 = 0) →
      ∃ m, (fillFrom F lam chunk index vs).flatten
        = chunk.take index ++ vs ++ List.replicate m 0 := by
  intro vs
  induction vs with
  | nil =>
    intro chunk index h1 hlen hz
    refine ⟨lam - index, ?_⟩
    simp only [fillFrom, List.flatten_cons, List.flatten_nil, List.append_nil, List.nil_append]
    exact eq_take_append_replicate chunk lam index hlen hz
  | cons v vs ih =>
    intro chunk index h1 hlen hz
    simp only [fillFrom]
    by_cases hge : lam ≤ index
    · obtain ⟨m, hm⟩ := ih ((List.replicate lam 0).set 0 v) 1 le_rfl (by simp)
        (fun k hk => by
          rw [getD_set_ne _ _ _ _ (by omega)]
          exact getD_replicate_zero lam k)
      rw [if_pos hge]
      refine ⟨m, ?_⟩
      rw [List.flatten_cons, hm]
      have ht : ((List.replicate lam 0).set 0 v).take 1 = [v] := by
        have := take_set_succ v (List.replicate lam (0 : F)) 0 (by simpa using h0)
        simpa using this
      rw [ht, List.take_of_length_le (hlen ▸ hge)]
      simp
    · obtain ⟨m, hm⟩ := ih (chunk.set index v) (index + 1) (by omega) (by simp [hlen])
        (fun k hk => by
          rw [getD_set_ne _ _ _ _ (by omega)]
          exact hz k (by omega))
      rw [if_neg hge]
      refine ⟨m, ?_⟩
      rw [hm, take_set_succ v chunk index (by omega)]
      simp

/-! ## Little-endian byte lemmas -/

theorem leBytes_length (n x : ℕ) : (leBytes n x).length = n := by
  simp [leBytes]

theorem leBytes_one (x : ℕ) : leBytes 1 x = [x % 256] := by
  simp [leBytes, List.range_succ]

theorem leBytes_succ (n x : ℕ) : leBytes (n + 1) x = x % 256 :: leBytes n (x / 256) := by
  unfold leBytes
  rw [List.range_succ_eq_map, List.map_cons, List.map_map]
  refine List.cons_eq_cons.mpr ⟨by norm_num, ?_⟩
  refine List.map_congr_left fun i _ => ?_
  show x / 2 ^ (8 * (i + 1)) % 256 = x / 256 / 2 ^ (8 * i) % 256
  rw [Nat.div_div_eq_div_mul]
  congr 2
  rw [show 8 * (i + 1) = 8 + 8 * i by ring, pow_add]
  norm_num

theorem fromLEBytes_leBytes (n : ℕ) : ∀ x, fromLEBytes (leBytes n x) = x % 2 ^ (8 * n) := by
  induction n with
  | zero => intro x; simp [leBytes, fromLEBytes, Nat.mod_one]
  | succ n ih =>
    intro x
    rw [leBytes_succ]
    show x % 256 + 256 * fromLEBytes (leBytes n (x / 256)) = _
    rw [ih]
    have h : (2 : ℕ) ^ (8 * (n + 1)) = 256 * 2 ^ (8 * n) := by
      rw [show 8 * (n + 1) = 8 + 8 * n by ring, pow_add]
      norm_num
    rw [h, Nat.mod_mul]

theorem getD_from_drop (l : List ℕ) (n : ℕ) : l.getD n 0 = (l.drop n).getD 0 0 := by
  rw [List.getD_eq_getElem?_getD, List.getD_eq_getElem?_getD, List.getElem?_drop]
  simp

/-- Slicing facts about the encrypted-report byte blob: each field of the
§6 layout is recovered by the take/drop/index at its offset, and the total
length is `13 + |encap| + |ct| + |tag| + 4 + |domain|`. -/
theorem encBlob_slices (ts bk tv1 tv2 ep kid etb : ℕ) (e c t dom : List ℕ) :
    ∀ out, out = leBytes 4 ts ++ (leBytes 1 bk ++ (leBytes 4 tv1 ++ (leBytes 4 tv2
        ++ (e ++ (c ++ (t ++ ([etb] ++ ([kid] ++ (leBytes 2 ep ++ dom))))))))) →
      out.take 4 = leBytes 4 ts
      ∧ out.getD 4 0 = bk % 256
      ∧ (out.drop 5).take 4 = leBytes 4 tv1
      ∧ ((out.drop 5).drop 4).take 4 = leBytes 4 tv2
      ∧ (out.drop 13).take e.length = e
      ∧ (out.drop (13 + e.length)).take (c.length + t.length) = c ++ t
      ∧ out.getD (13 + e.length + (c.length + t.length)) 0 = etb
      ∧ out.getD (13 + e.length + (c.length + t.length) + 1) 0 = kid
      ∧ (out.drop (13 + e.length + (c.length + t.length) + 2)).take 2 = leBytes 2 ep
      ∧ out.drop (13 + e.length + (c.length + t.length) + 4) = dom
      ∧ out.length = 13 + e.length + (c.length + t.length) + 4 + dom.length
      ∧ (out.drop 5).take 8 = leBytes 4 tv1 ++ leBytes 4 tv2 := by
  intro out hout
  have d4 : out.drop 4 = leBytes 1 bk ++ (leBytes 4 tv1 ++ (leBytes 4 tv2
      ++ (e ++ (c ++ (t ++ ([etb] ++ ([kid] ++ (leBytes 2 ep ++ dom)))))))) := by
    rw [hout]
    exact List.drop_left' (leBytes_length 4 ts)
  have d5 : out.drop 5 = leBytes 4 tv1 ++ (leBytes 4 tv2
      ++ (e ++ (c ++ (t ++ ([etb] ++ ([kid] ++ (leBytes 2 ep ++ dom))))))) := by
    rw [show (5 : ℕ) = 4 + 1 by norm_num, ← List.drop_drop, d4]
    exact List.drop_left' (leBytes_length 1 bk)
  have d9 : (out.drop 5).drop 4 = leBytes 4 tv2
      ++ (e ++ (c ++ (t ++ ([etb] ++ ([kid] ++ (leBytes 2 ep ++ dom)))))) := by
    rw [d5]
    exact List.drop_left' (leBytes_length 4 tv1)
  have d13 : out.drop 13 = e ++ (c ++ (t ++ ([etb] ++ ([kid] ++ (leBytes 2 ep ++ dom))))) := by
    rw [show (13 : ℕ) = 9 + 4 by norm_num, ← List.drop_drop,
      show (9 : ℕ) = 5 + 4 by norm_num, ← List.drop_drop, d9]
    exact List.drop_left' (leBytes_length 4 tv2)
  have dE : out.drop (13 + e.length) = c ++ (t ++ ([etb] ++ ([kid] ++ (leBytes 2 ep ++ dom)))) := by
    rw [← List.drop_drop, d13]
    exact List.drop_left' rfl
  have dC : out.drop (13 + e.length + (c.length + t.length))
      = [etb] ++ ([kid] ++ (leBytes 2 ep ++ dom)) := by
    rw [← List.drop_drop, dE, ← List.append_assoc]
    exact List.drop_left' (by simp)
  have dK : out.drop (13 + e.length + (c.length + t.length) + 1)
      = [kid] ++ (leBytes 2 ep ++ dom) := by
    rw [← List.drop_drop, dC]
    rfl
  have dP : out.drop (13 + e.length + (c.length + t.length) + 2)
      = leBytes 2 ep ++ dom := by
    rw [show 13 + e.length + (c.length + t.length) + 2
        = 13 + e.length + (c.length + t.length) + 1 + 1 by ring, ← List.drop_drop, dK]
    rfl
  refine ⟨?_, ?_, ?_, ?_, ?_, ?_, ?_, ?_, ?_, ?_, ?_, ?_⟩
  · rw [hout]
    exact List.take_left' (leBytes_length 4 ts)
  · rw [getD_from_drop, d4, leBytes_one]
    rfl
  · rw [d5]
    exact List.take_left' (leBytes_length 4 tv1)
  · rw [d9]
    exact List.take_left' (leBytes_length 4 tv2)
  · rw [d13]
    exact List.take_left' rfl
  · rw [dE, ← List.append_assoc]
    exact List.take_left' (by simp)
  · rw [getD_from_drop, dC]
    rfl
  · rw [getD_from_drop, dK]
    rfl
  · rw [dP]
    exact List.take_left' (leBytes_length 2 ep)
  · rw [show 13 + e.length + (c.length + t.length) + 4
        = 13 + e.length + (c.length + t.length) + 2 + 2 by ring, ← List.drop_drop, dP]
    exact List.drop_left' (leBytes_length 2 ep)
  · rw [hout]
    simp [leBytes_length]
    ring
  · rw [d5, ← List.append_assoc]
    exact List.take_left' (by simp [leBytes_length])

/-! ## Report codec helpers -/

theorem eventTypeFromByte_toByte (et : EventType) :
    eventTypeFromByte (eventTypeToByte et) = some et := by
  cases et <;> rfl

theorem eventTypeFromByte_ne (b : ℕ) (h0 : b ≠ 0) (h1 : b ≠ 1) :
    eventTypeFromByte b = none := by
  match b, h0, h1 with
  | 0, h0, _ => exact absurd rfl h0
  | 1, _, h1 => exact absurd rfl h1
  | n + 2, _, _ => rfl

theorem validUtf8_cons_ascii (b : ℕ) (rest : List ℕ) (hb : b < 128) :
    validUtf8 (b :: rest) = validUtf8 rest := by
  show (match utf8Need b with
    | none => false
    | some (k, lo, hi) => validUtf8From k lo hi rest) = validUtf8From 0 0 0 rest
  rw [show utf8Need b = some (0, 0, 0) from by unfold utf8Need; rw [if_pos (by omega : b < 0x80)]]

theorem ascii_validUtf8 : ∀ bs : List ℕ, (∀ b ∈ bs, b < 128) → validUtf8 bs = true := by
  intro bs
  induction bs with
  | nil => intro _; rfl
  | cons b rest ih =>
    intro h
    rw [validUtf8_cons_ascii b rest (h b (List.mem_cons_self b rest))]
    exact ih fun x hx => h x (List.mem_cons_of_mem _ hx)

theorem helperOrigin_ascii : helperOrigin.all (· < 128) = true := by decide

/-- With an ASCII domain, `Info::new` with the helper origin succeeds. -/
theorem info_new_ascii (kid ep : ℕ) (et : EventType) (domain : List ℕ)
    (hdom : ∀ b ∈ domain, b < 128) :
    Info.new kid ep et helperOrigin domain = some ⟨kid, ep, et, helperOrigin, domain⟩ := by
  unfold Info.new
  rw [if_pos]
  rw [Bool.and_eq_true]
  exact ⟨helperOrigin_ascii, by simpa [List.all_eq_true] using hdom⟩

/-! ## Claim C8 -/

/-- C8: on a buffer long enough for the fixed prefix, `from_bytes` returns
`BadEventType` exactly when the event-type byte is neither 0 nor 1 (0
parsing as a source event and 1 as a trigger event), returns
`NonAsciiString` exactly when the event-type byte is valid but the domain
suffix has a non-ASCII byte, and otherwise succeeds, after which the
`event_type` and `site_domain` accessors cannot fail. -/
theorem C8_from_bytes_errors (bytes : List ℕ) (hlen : siteDomainOffset ≤ bytes.length) :
    ((∃ v, from_bytes bytes = .err (.badEventType v))
        ↔ ¬(bytes.getD eventTypeOffset 0 = 0 ∨ bytes.getD eventTypeOffset 0 = 1))
    ∧ (from_bytes bytes = .err .nonAsciiString
        ↔ ((bytes.getD eventTypeOffset 0 = 0 ∨ bytes.getD eventTypeOffset 0 = 1)
            ∧ ¬∀ b ∈ bytes.drop siteDomainOffset, b < 128))
    ∧ ((bytes.getD eventTypeOffset 0 = 0 ∨ bytes.getD eventTypeOffset 0 = 1) →
        (∀ b ∈ bytes.drop siteDomainOffset, b < 128) →
        from_bytes bytes = .ok
        ∧ (bytes.getD eventTypeOffset 0 = 0 → event_typeAcc bytes = some .source)
        ∧ (bytes.getD eventTypeOffset 0 = 1 → event_typeAcc bytes = some .trigger)
        ∧ site_domainAcc bytes = some (bytes.drop siteDomainOffset)) := by
  have h1 : eventTypeOffset < bytes.length := by
    have : eventTypeOffset < siteDomainOffset := by decide
    omega
  have hAiff : (bytes.drop siteDomainOffset).all (· < 128) = true
      ↔ ∀ x ∈ bytes.drop siteDomainOffset, x < 128 := by
    simp [List.all_eq_true]
  set b := bytes.getD eventTypeOffset 0 with hb
  by_cases hb0 : b = 0
  · have hfb : eventTypeFromByte b = some .source := by rw [hb0]; rfl
    by_cases hA : (bytes.drop siteDomainOffset).all (· < 128) = true
    · have hcomp : from_bytes bytes = .ok := by
        unfold from_bytes
        rw [← hb, if_pos h1, hfb, if_pos hlen, if_pos hA]
      refine ⟨?_, ?_, ?_⟩
      · rw [hcomp]
        exact iff_of_false (fun ⟨v, hv⟩ => ParseOutcome.noConfusion hv)
          (not_not_intro (Or.inl hb0))
      · rw [hcomp]
        exact iff_of_false (fun hv => ParseOutcome.noConfusion hv)
          (fun h => h.2 (hAiff.mp hA))
      · intro _ _
        refine ⟨hcomp, fun _ => ?_, fun hb1 => by omega, ?_⟩
        · unfold event_typeAcc
          rw [← hb]
          exact hfb
        · unfold site_domainAcc
          rw [if_pos (ascii_validUtf8 _ (hAiff.mp hA))]
    · have hcomp : from_bytes bytes = .err .nonAsciiString := by
        unfold from_bytes
        rw [← hb, if_pos h1, hfb, if_pos hlen, if_neg hA]
      rw [hAiff] at hA
      refine ⟨?_, ?_, ?_⟩
      · rw [hcomp]
        simp [hb0]
      · rw [hcomp]
        simp [hb0, hA]
      · intro _ hascii
        exact absurd hascii hA
  · by_cases hb1 : b = 1
    · have hfb : eventTypeFromByte b = some .trigger := by rw [hb1]; rfl
      by_cases hA : (bytes.drop siteDomainOffset).all (· < 128) = true
      · have hcomp : from_bytes bytes = .ok := by
          unfold from_bytes
          rw [← hb, if_pos h1, hfb, if_pos hlen, if_pos hA]
        refine ⟨?_, ?_, ?_⟩
        · rw [hcomp]
          exact iff_of_false (fun ⟨v, hv⟩ => ParseOutcome.noConfusion hv)
            (not_not_intro (Or.inr hb1))
        · rw [hcomp]
          exact iff_of_false (fun hv => ParseOutcome.noConfusion hv)
            (fun h => h.2 (hAiff.mp hA))
        · intro _ _
          refine ⟨hcomp, fun hb0' => absurd hb0' hb0, fun _ => ?_, ?_⟩
          · unfold event_typeAcc
            rw [← hb]
            exact hfb
          · unfold site_domainAcc
            rw [if_pos (ascii_validUtf8 _ (hAiff.mp hA))]
      · have hcomp : from_bytes bytes = .err .nonAsciiString := by
          unfold from_bytes
          rw [← hb, if_pos h1, hfb, if_pos hlen, if_neg hA]
        rw [hAiff] at hA
        refine ⟨?_, ?_, ?_⟩
        · rw [hcomp]
          simp [hb1]
        · rw [hcomp]
          simp [hb1, hA]
        · intro _ hascii
          exact absurd hascii hA
    · have hfb : eventTypeFromByte b = none := eventTypeFromByte_ne _ hb0 hb1
      have hcomp : from_bytes bytes = .err (.badEventType b) := by
        unfold from_bytes
        rw [← hb, if_pos h1, hfb]
      refine ⟨?_, ?_, ?_⟩
      · rw [hcomp]
        simp [hb0, hb1]
      · rw [hcomp]
        simp [hb0, hb1]
      · intro hor _
        rcases hor with h | h
        · exact absurd h hb0
        · exact absurd h hb1

/-- Witness for C8: an all-zero buffer of exactly the prefix length parses
successfully as a source event with an empty domain. -/
theorem C8_from_bytes_errors_witness :
    from_bytes (List.replicate 75 0) = .ok :=
  ((C8_from_bytes_errors (List.replicate 75 0) (by decide)).2.2
    (Or.inl (by decide)) (by decide)).1

/-! ## Claim C10 -/

/-- C10 counterexample: a 72-byte buffer (strictly shorter than the
75-byte fixed prefix) whose event-type byte is 2 makes `from_bytes`
return `BadEventType` — it does not panic, contradicting the claim that
every short buffer panics. -/
theorem C10_from_bytes_counterexample :
    (List.replicate 71 0 ++ [2]).length < siteDomainOffset
    ∧ from_bytes (List.replicate 71 0 ++ [2]) = .err (.badEventType 2)
    ∧ from_bytes (List.replicate 71 0 ++ [2]) ≠ .panicked := by
  refine ⟨by decide, by decide, by decide⟩

/-- C10 (amended): `from_bytes` performs no dedicated length validation:
on a buffer shorter than the fixed prefix it panics from an out-of-bounds
index or slice — except that when the event-type byte exists and is
invalid it returns `BadEventType` first — and it never returns
`NonAsciiString` or succeeds. -/
theorem C10_from_bytes_short (bytes : List ℕ) (hlen : bytes.length < siteDomainOffset) :
    (from_bytes bytes = .panicked
      ↔ (bytes.length ≤ eventTypeOffset
          ∨ bytes.getD eventTypeOffset 0 = 0 ∨ bytes.getD eventTypeOffset 0 = 1))
    ∧ from_bytes bytes ≠ .ok
    ∧ from_bytes bytes ≠ .err .nonAsciiString
    ∧ (∀ er, from_bytes bytes = .err er →
        er = .badEventType (bytes.getD eventTypeOffset 0)
        ∧ ¬(bytes.getD eventTypeOffset 0 = 0 ∨ bytes.getD eventTypeOffset 0 = 1)) := by
  by_cases hL : eventTypeOffset < bytes.length
  · have hSDO : ¬ siteDomainOffset ≤ bytes.length := by omega
    set b := bytes.getD eventTypeOffset 0 with hb
    by_cases hb0 : b = 0
    · have hfb : eventTypeFromByte b = some .source := by rw [hb0]; rfl
      have hcomp : from_bytes bytes = .panicked := by
        unfold from_bytes
        rw [← hb, if_pos hL, hfb, if_neg hSDO]
      rw [hcomp]
      refine ⟨by simp [hb0], by simp, by simp, by simp⟩
    · by_cases hb1 : b = 1
      · have hfb : eventTypeFromByte b = some .trigger := by rw [hb1]; rfl
        have hcomp : from_bytes bytes = .panicked := by
          unfold from_bytes
          rw [← hb, if_pos hL, hfb, if_neg hSDO]
        rw [hcomp]
        refine ⟨by simp [hb1], by simp, by simp, by simp⟩
      · have hfb : eventTypeFromByte b = none := eventTypeFromByte_ne _ hb0 hb1
        have hcomp : from_bytes bytes = .err (.badEventType b) := by
          unfold from_bytes
          rw [← hb, if_pos hL, hfb]
        rw [hcomp]
        refine ⟨?_, by simp, by simp, ?_⟩
        · constructor
          · intro h
            exact absurd h (by simp)
          · intro h
            rcases h with h | h | h
            · omega
            · exact absurd h hb0
            · exact absurd h hb1
        · intro er her
          have h2 : er = InvalidReport.badEventType b := by
            injection her with h2
            exact h2.symm
          refine ⟨h2, ?_⟩
          rintro (h | h)
          · exact hb0 h
          · exact hb1 h
  · have hcomp : from_bytes bytes = .panicked := by
      unfold from_bytes
      rw [if_neg hL]
    rw [hcomp]
    refine ⟨?_, by simp, by simp, by simp⟩
    exact iff_of_true rfl (Or.inl (by omega))

/-- Witness for C10's amended statement: the empty buffer panics. -/
theorem C10_from_bytes_short_witness :
    from_bytes [] = .panicked :=
  (C10_from_bytes_short [] (by decide)).1.mpr (Or.inl (by decide))

/-! ## Claims C7 and C4 -/

/-- `from_bytes` succeeds on a buffer whose event-type byte encodes an
event type and whose domain suffix is ASCII. -/
theorem from_bytes_ok_of (bytes : List ℕ) (et : EventType)
    (h1 : eventTypeOffset < bytes.length)
    (hb : bytes.getD eventTypeOffset 0 = eventTypeToByte et)
    (h2 : siteDomainOffset ≤ bytes.length)
    (hall : ∀ x ∈ bytes.drop siteDomainOffset, x < 128) :
    from_bytes bytes = .ok := by
  have hA : (bytes.drop siteDomainOffset).all (· < 128) = true := by
    simpa [List.all_eq_true] using hall
  cases et <;>
    (unfold from_bytes
     rw [if_pos h1, hb]
     show (if siteDomainOffset ≤ bytes.length then
         (if (bytes.drop siteDomainOffset).all (· < 128) then ParseOutcome.ok
          else .err .nonAsciiString) else .panicked) = .ok
     rw [if_pos h2, if_pos hA])

/-- C7: for every valid report the emitted byte blob has exactly the §6
layout: timestamp at 0..4 little-endian, breakdown key at 4, the
serialized replicated trigger value at 5..13, the encapsulated key at
13..13+|encap|, then ciphertext‖tag, one event-type byte, one key-id
byte, two little-endian epoch bytes, and the ASCII site domain to the
end; the total length is `13 + |encap| + |ct+tag| + 4 + |domain|`. -/
theorem C7_report_layout
    (sealIP : ℕ → Info → List ℕ → ℕ → Option (List ℕ × List ℕ × List ℕ))
    (r : Report) (key_id key_registry rng : ℕ)
    (hdom : ∀ b ∈ r.site_domain, b < 128)
    (hbk : r.breakdown_key < 2 ^ 8)
    (e c t : List ℕ)
    (hseal : sealIP key_registry ⟨key_id, r.epoch, r.event_type, helperOrigin, r.site_domain⟩
        (serializeReplicated 5 r.mk_shares) rng = some (e, c, t)) :
    ∃ out, encrypt_to sealIP r key_id key_registry rng = some out
      ∧ out.take 4 = leBytes 4 r.timestamp
      ∧ out.getD 4 0 = r.breakdown_key
      ∧ (out.drop 5).take 8 = serializeReplicated 4 r.trigger_value
      ∧ (out.drop 13).take e.length = e
      ∧ (out.drop (13 + e.length)).take (c.length + t.length) = c ++ t
      ∧ out.getD (13 + e.length + (c.length + t.length)) 0 = eventTypeToByte r.event_type
      ∧ out.getD (13 + e.length + (c.length + t.length) + 1) 0 = key_id
      ∧ (out.drop (13 + e.length + (c.length + t.length) + 2)).take 2 = leBytes 2 r.epoch
      ∧ out.drop (13 + e.length + (c.length + t.length) + 4) = r.site_domain
      ∧ out.length = 13 + e.length + (c.length + t.length) + 4 + r.site_domain.length := by
  have hinfo := info_new_ascii key_id r.epoch r.event_type r.site_domain hdom
  have henc : encrypt_to sealIP r key_id key_registry rng
      = some (leBytes 4 r.timestamp ++ (leBytes 1 r.breakdown_key
          ++ (leBytes 4 r.trigger_value.1 ++ (leBytes 4 r.trigger_value.2
          ++ (e ++ (c ++ (t ++ ([eventTypeToByte r.event_type]
          ++ ([key_id] ++ (leBytes 2 r.epoch ++ r.site_domain)))))))))) := by
    simp only [encrypt_to, hinfo, hseal]
    simp [serializeReplicated, List.append_assoc]
  obtain ⟨s1, s2, s3, s4, s5, s6, s7, s8, s9, s10, s11, s12⟩ :=
    encBlob_slices r.timestamp r.breakdown_key r.trigger_value.1 r.trigger_value.2 r.epoch
      key_id (eventTypeToByte r.event_type) e c t r.site_domain _ rfl
  refine ⟨_, henc, s1, ?_, ?_, s5, s6, s7, s8, s9, s10, s11⟩
  · rw [s2]
    exact Nat.mod_eq_of_lt (by omega)
  · rw [s12]
    rfl

/-- Witness for C7: a concrete trigger report with a one-character domain
under an identity HPKE seal. -/
theorem C7_report_layout_witness :
    ∃ out, encrypt_to (fun _ _ pt _ => some (List.replicate 32 0, pt, List.replicate 16 0))
        ⟨0, (0, 0), .trigger, 0, (0, 0), 0, [97]⟩ 0 0 0 = some out
      ∧ out.length = 13 + (List.replicate 32 (0 : ℕ)).length
          + ((serializeReplicated 5 ((0 : ℕ), (0 : ℕ))).length
            + (List.replicate 16 (0 : ℕ)).length) + 4 + [97].length := by
  obtain ⟨out, h1, _, _, _, _, _, _, _, _, _, h11⟩ :=
    C7_report_layout (fun _ _ pt _ => some (List.replicate 32 0, pt, List.replicate 16 0))
      ⟨0, (0, 0), .trigger, 0, (0, 0), 0, [97]⟩ 0 0 0
      (by intro b hb; simp at hb; omega) (by norm_num)
      (List.replicate 32 0) (serializeReplicated 5 (0, 0)) (List.replicate 16 0) rfl
  exact ⟨out, h1, h11⟩

/-- C4: report encryption round-trips: for every valid report whose key id
is served by the registry (the HPKE seal succeeds and open inverts it),
parsing and decrypting the emitted blob returns the original report in
every field. -/
theorem C4_report_roundtrip
    (sealIP : ℕ → Info → List ℕ → ℕ → Option (List ℕ × List ℕ × List ℕ))
    (openIP : ℕ → List ℕ → List ℕ → Info → Option (List ℕ))
    (r : Report) (key_id key_registry rng : ℕ)
    (hval : r.valid) (hkid : key_id < 2 ^ 8)
    (e c t : List ℕ)
    (hseal : sealIP key_registry ⟨key_id, r.epoch, r.event_type, helperOrigin, r.site_domain⟩
        (serializeReplicated 5 r.mk_shares) rng = some (e, c, t))
    (he : e.length = 32) (hc : c.length = 10) (ht : t.length = 16)
    (hopen : openIP key_registry e (c ++ t)
        ⟨key_id, r.epoch, r.event_type, helperOrigin, r.site_domain⟩
        = some (serializeReplicated 5 r.mk_shares)) :
    ∃ out, encrypt_to sealIP r key_id key_registry rng = some out
      ∧ from_bytes out = .ok
      ∧ decrypt openIP out key_registry = some r := by
  obtain ⟨ts, ⟨m1, m2⟩, et, bk, ⟨tv1, tv2⟩, ep, dom⟩ := r
  unfold Report.valid at hval
  obtain ⟨hts, hbk, hm1, hm2, htv1, htv2, hep, hdom⟩ := hval
  simp only at hseal hopen hts hbk hm1 hm2 htv1 htv2 hep hdom
  have hinfo := info_new_ascii key_id ep et dom hdom
  have henc : encrypt_to sealIP ⟨ts, (m1, m2), et, bk, (tv1, tv2), ep, dom⟩ key_id
        key_registry rng
      = some (leBytes 4 ts ++ (leBytes 1 bk ++ (leBytes 4 tv1 ++ (leBytes 4 tv2
          ++ (e ++ (c ++ (t ++ ([eventTypeToByte et]
          ++ ([key_id] ++ (leBytes 2 ep ++ dom)))))))))) := by
    simp only [encrypt_to, hinfo, hseal]
    simp [serializeReplicated, List.append_assoc]
  obtain ⟨s1, s2, s3, s4, s5, s6, s7, s8, s9, s10, s11, s12⟩ :=
    encBlob_slices ts bk tv1 tv2 ep key_id (eventTypeToByte et) e c t dom _ rfl
  have hct : c.length + t.length = 26 := by omega
  rw [he] at s5 s6 s7 s8 s9 s10 s11
  rw [hct] at s6 s7 s8 s9 s10 s11
  rw [show (13 : ℕ) + 32 = 45 by norm_num] at s6
  rw [show (13 : ℕ) + 32 + 26 = 71 by norm_num] at s7
  rw [show (13 : ℕ) + 32 + 26 + 1 = 72 by norm_num] at s8
  rw [show (13 : ℕ) + 32 + 26 + 2 = 73 by norm_num] at s9
  rw [show (13 : ℕ) + 32 + 26 + 4 = 75 by norm_num] at s10
  have hlen : (leBytes 4 ts ++ (leBytes 1 bk ++ (leBytes 4 tv1 ++ (leBytes 4 tv2
      ++ (e ++ (c ++ (t ++ ([eventTypeToByte et]
      ++ ([key_id] ++ (leBytes 2 ep ++ dom)))))))))).length = 75 + dom.length := by
    rw [s11]
  have hb71 : (leBytes 4 ts ++ (leBytes 1 bk ++ (leBytes 4 tv1 ++ (leBytes 4 tv2
      ++ (e ++ (c ++ (t ++ ([eventTypeToByte et]
      ++ ([key_id] ++ (leBytes 2 ep ++ dom)))))))))).getD eventTypeOffset 0
      = eventTypeToByte et := by
    rw [show eventTypeOffset = 71 from rfl]
    exact s7
  have hdrop75 : (leBytes 4 ts ++ (leBytes 1 bk ++ (leBytes 4 tv1 ++ (leBytes 4 tv2
      ++ (e ++ (c ++ (t ++ ([eventTypeToByte et]
      ++ ([key_id] ++ (leBytes 2 ep ++ dom)))))))))).drop siteDomainOffset = dom := by
    rw [show siteDomainOffset = 75 from rfl]
    exact s10
  refine ⟨_, henc, ?_, ?_⟩
  · exact from_bytes_ok_of _ et (by rw [show eventTypeOffset = 71 from rfl, hlen]; omega)
      hb71 (by rw [show siteDomainOffset = 75 from rfl, hlen]; omega)
      (by rw [hdrop75]; exact hdom)
  · have hetacc : event_typeAcc (leBytes 4 ts ++ (leBytes 1 bk ++ (leBytes 4 tv1
        ++ (leBytes 4 tv2 ++ (e ++ (c ++ (t ++ ([eventTypeToByte et]
        ++ ([key_id] ++ (leBytes 2 ep ++ dom)))))))))) = some et := by
      unfold event_typeAcc
      rw [hb71, eventTypeFromByte_toByte]
    have hdomacc : site_domainAcc (leBytes 4 ts ++ (leBytes 1 bk ++ (leBytes 4 tv1
        ++ (leBytes 4 tv2 ++ (e ++ (c ++ (t ++ ([eventTypeToByte et]
        ++ ([key_id] ++ (leBytes 2 ep ++ dom)))))))))) = some dom := by
      unfold site_domainAcc
      rw [hdrop75, if_pos (ascii_validUtf8 dom hdom)]
    have hkidacc : key_idAcc (leBytes 4 ts ++ (leBytes 1 bk ++ (leBytes 4 tv1
        ++ (leBytes 4 tv2 ++ (e ++ (c ++ (t ++ ([eventTypeToByte et]
        ++ ([key_id] ++ (leBytes 2 ep ++ dom)))))))))) = key_id := by
      unfold key_idAcc
      rw [show eventTypeOffset + 1 = 72 from rfl]
      exact s8
    have hepacc : epochAcc (leBytes 4 ts ++ (leBytes 1 bk ++ (leBytes 4 tv1
        ++ (leBytes 4 tv2 ++ (e ++ (c ++ (t ++ ([eventTypeToByte et]
        ++ ([key_id] ++ (leBytes 2 ep ++ dom)))))))))) = ep := by
      unfold epochAcc
      rw [show eventTypeOffset + 2 = 73 from rfl, s9, fromLEBytes_leBytes]
      exact Nat.mod_eq_of_lt (by simpa using hep)
    have hencap : encap_keyAcc (leBytes 4 ts ++ (leBytes 1 bk ++ (leBytes 4 tv1
        ++ (leBytes 4 tv2 ++ (e ++ (c ++ (t ++ ([eventTypeToByte et]
        ++ ([key_id] ++ (leBytes 2 ep ++ dom)))))))))) = e := by
      unfold encap_keyAcc
      rw [show encapSize = 32 from rfl]
      exact s5
    have hmkct : match_key_ciphertextAcc (leBytes 4 ts ++ (leBytes 1 bk ++ (leBytes 4 tv1
        ++ (leBytes 4 tv2 ++ (e ++ (c ++ (t ++ ([eventTypeToByte et]
        ++ ([key_id] ++ (leBytes 2 ep ++ dom)))))))))) = c ++ t := by
      unfold match_key_ciphertextAcc
      rw [show ciphertextOffset = 45 from rfl, show ciphertextSize = 26 from rfl]
      exact s6
    have htsacc : timestampAcc (leBytes 4 ts ++ (leBytes 1 bk ++ (leBytes 4 tv1
        ++ (leBytes 4 tv2 ++ (e ++ (c ++ (t ++ ([eventTypeToByte et]
        ++ ([key_id] ++ (leBytes 2 ep ++ dom)))))))))) = ts := by
      unfold timestampAcc
      rw [s1, fromLEBytes_leBytes]
      exact Nat.mod_eq_of_lt (by simpa using hts)
    have hbkacc : breakdown_keyAcc (leBytes 4 ts ++ (leBytes 1 bk ++ (leBytes 4 tv1
        ++ (leBytes 4 tv2 ++ (e ++ (c ++ (t ++ ([eventTypeToByte et]
        ++ ([key_id] ++ (leBytes 2 ep ++ dom)))))))))) = bk := by
      unfold breakdown_keyAcc
      rw [s2]
      exact Nat.mod_eq_of_lt (by omega)
    have htvacc : trigger_valueAcc (leBytes 4 ts ++ (leBytes 1 bk ++ (leBytes 4 tv1
        ++ (leBytes 4 tv2 ++ (e ++ (c ++ (t ++ ([eventTypeToByte et]
        ++ ([key_id] ++ (leBytes 2 ep ++ dom)))))))))) = (tv1, tv2) := by
      unfold trigger_valueAcc deserializeReplicated
      rw [s3, s4, fromLEBytes_leBytes, fromLEBytes_leBytes,
        Nat.mod_eq_of_lt (lt_of_lt_of_le htv1 (by norm_num)),
        Nat.mod_eq_of_lt (lt_of_lt_of_le htv2 (by norm_num))]
    have hmkde : deserializeReplicated 5 (serializeReplicated 5 (m1, m2)) = (m1, m2) := by
      unfold serializeReplicated deserializeReplicated
      rw [List.take_left' (leBytes_length 5 m1), List.drop_left' (leBytes_length 5 m1),
        List.take_of_length_le (le_of_eq (leBytes_length 5 m2)),
        fromLEBytes_leBytes, fromLEBytes_leBytes,
        Nat.mod_eq_of_lt (lt_of_lt_of_le hm1 (by norm_num)),
        Nat.mod_eq_of_lt (lt_of_lt_of_le hm2 (by norm_num))]
    have hinfo2 := info_new_ascii key_id ep et dom hdom
    simp only [decrypt, hetacc, hdomacc, hkidacc, hepacc, hinfo2, hencap, hmkct, hopen,
      htsacc, hbkacc, htvacc, hmkde]

/-- Witness for C4: a concrete trigger report with domain "a" round-trips
under an identity HPKE. -/
theorem C4_report_roundtrip_witness :
    ∃ out, encrypt_to (fun _ _ pt _ => some (List.replicate 32 0, pt, List.replicate 16 0))
        ⟨0, (0, 0), .trigger, 0, (0, 0), 0, [97]⟩ 0 0 0 = some out
      ∧ from_bytes out = .ok
      ∧ decrypt (fun _ _ ctt _ => some (ctt.take 10)) out 0
        = some ⟨0, (0, 0), .trigger, 0, (0, 0), 0, [97]⟩ :=
  C4_report_roundtrip (fun _ _ pt _ => some (List.replicate 32 0, pt, List.replicate 16 0))
    (fun _ _ ctt _ => some (ctt.take 10))
    ⟨0, (0, 0), .trigger, 0, (0, 0), 0, [97]⟩ 0 0 0
    (by
      unfold Report.valid
      refine ⟨by norm_num, by norm_num, by norm_num, by norm_num, by norm_num,
        by norm_num, by norm_num, ?_⟩
      intro b hb
      simp at hb
      omega)
    (by norm_num)
    (List.replicate 32 0) (serializeReplicated 5 (0, 0)) (List.replicate 16 0)
    rfl rfl rfl rfl rfl

/-! ## Claim C1 -/

/-- C1: for every prime field `F`, shape pair `(λ, P)` with `P = 2λ−1`,
`out_share`, proof array `zkp` and challenge `r`,
`ProofVerifier::verify_proof` returns `(g(r), (Σ_{i<λ} zkp[i]) − out_share)`
where `g` is the unique polynomial of degree `< P` with `g(i) = zkp[i]`,
evaluated by Lagrange interpolation over the canonical denominators; in
particular over `GF(31)` with `λ = 4`, `P = 7`, `out_share = 27`,
`zkp = [0,0,13,17,11,25,7]`, `r = 22` the result is `(0, 3)`. -/
theorem C1_verify_proof (F : Type*) [Field F] (lam P : ℕ) (hshape : P = 2 * lam - 1)
    (out_share : F) (zkp : ℕ → F) (r : F)
    (hnodes : ∀ i < P, ∀ j < P, (i : F) = (j : F) → i = j)
    (g : Polynomial F) (hdeg : g.degree < (P : ℕ))
    (hval : ∀ i < P, g.eval (i : F) = zkp i) :
    verify_proof F lam P out_share zkp r
        = (g.eval r, (∑ i ∈ Finset.range lam, zkp i) - out_share)
      ∧ verify_proof (ZMod 31) 4 7 27 (fun i => [0, 0, 13, 17, 11, 25, 7].getD i 0) 22
        = (0, 3) := by
  constructor
  · simp only [verify_proof]
    rw [lagrangeEval_eq_polyEval F P r zkp (injOn_cast_range P hnodes) g hdeg hval,
      foldl_add_range, zero_add]
  · simp only [verify_proof, lagrangeEval, lagrangeTableEntry,
      canonicalLagrangeDenominator, zmod31_inv_eq_pow]
    decide

/-- Witness for C1: the concrete GF(31) instance of the spec's first ZKP
round, obtained by instantiating `C1_verify_proof` at the interpolating
polynomial of the `zkp` values. -/
theorem C1_verify_proof_witness :
    verify_proof (ZMod 31) 4 7 27 (fun i => [0, 0, 13, 17, 11, 25, 7].getD i 0) 22
      = (0, 3) := by
  have hInj : Set.InjOn (Nat.cast : ℕ → ZMod 31) (Finset.range 7) :=
    injOn_cast_range 7 (by decide)
  have hdeg := Lagrange.degree_interpolate_lt
    (fun i => ([0, 0, 13, 17, 11, 25, 7] : List (ZMod 31)).getD i 0) hInj
  exact (C1_verify_proof (ZMod 31) 4 7 (by decide) 27
    (fun i => [0, 0, 13, 17, 11, 25, 7].getD i 0) 22 (by decide)
    (Lagrange.interpolate (Finset.range 7) Nat.cast
      (fun i => [0, 0, 13, 17, 11, 25, 7].getD i 0))
    (by simpa [Finset.card_range] using hdeg)
    (fun i hi => Lagrange.eval_interpolate_at_node
      (fun i => [0, 0, 13, 17, 11, 25, 7].getD i 0) hInj (Finset.mem_range.mpr hi))).2

/-! ## Claim C2 -/

/-- C2: `ProofVerifier::recurse_u_or_v` over any field returns `⌈n/λ⌉`
chunks of length `λ`; the flattened `j`-th output (for `j < n`) is the
Lagrange evaluation at `r` of the `j`-th input chunk, the remaining
positions of the final chunk are zero, and an empty input gives an empty
output; in particular over `GF(31)` the spec's 32-element `u` vector
chunked by 4 with `r = 22` compresses to `[0,0,26,0,7,18,24,13]`. -/
theorem C2_recurse_u_or_v (F : Type*) [Field F] (lam : ℕ) (h0 : 0 < lam)
    (chunks : List (List F)) (r : F) :
    ((recurse_u_or_v F lam chunks r).length = (chunks.length + lam - 1) / lam
    ∧ (∀ j < chunks.length,
        (recurse_u_or_v F lam chunks r).flatten.getD j 0
          = lagrangeEval F lam r fun i => (chunks.getD j []).getD i 0)
    ∧ (∀ j, chunks.length ≤ j → (recurse_u_or_v F lam chunks r).flatten.getD j 0 = 0)
    ∧ (∀ c ∈ recurse_u_or_v F lam chunks r, c.length = lam)
    ∧ (chunks = [] → recurse_u_or_v F lam chunks r = []))
    ∧ recurse_u_or_v (ZMod 31) 4
        [[0, 30, 0, 16], [0, 1, 0, 15], [0, 0, 0, 16], [0, 30, 0, 16],
         [29, 1, 1, 15], [0, 0, 1, 15], [2, 30, 30, 16], [0, 0, 30, 16]] 22
      = [[0, 0, 26, 0], [7, 18, 24, 13]] := by
  constructor
  · cases chunks with
    | nil =>
      have hnil : recurse_u_or_v F lam [] r = [] := by
        simp [recurse_u_or_v, recurseLoop]
      refine ⟨?_, ?_, ?_, ?_, fun _ => hnil⟩
      · rw [hnil]
        simp only [List.length_nil, Nat.zero_add]
        exact (Nat.div_eq_of_lt (by omega)).symm
      · intro j hj
        simp at hj
      · intro j _
        rw [hnil]
        rfl
      · intro c hc
        rw [hnil] at hc
        simp at hc
    | cons c rest =>
      have key : recurse_u_or_v F lam (c :: rest) r
          = fillFrom F lam
              ((List.replicate lam 0).set 0
                (lagrangeEval F lam r fun i => c.getD i 0)) 1
              (rest.map fun d => lagrangeEval F lam r fun i => d.getD i 0) := by
        simp only [recurse_u_or_v, recurseLoop]
        rw [if_neg (by omega), recurseLoop_eq_fillFrom F lam r rest [] _ 1 le_rfl,
          List.nil_append]
      have hchunklen : ((List.replicate lam 0).set 0
          (lagrangeEval F lam r fun i => c.getD i 0)).length = lam := by simp
      obtain ⟨m, hm⟩ := fillFrom_flatten F lam h0
        (rest.map fun d => lagrangeEval F lam r fun i => d.getD i 0) _ 1 le_rfl hchunklen
        (fun k hk => by
          rw [getD_set_ne _ _ _ _ (by omega)]
          exact getD_replicate_zero _ _)
      have ht1 : ((List.replicate lam 0).set 0
          (lagrangeEval F lam r fun i => c.getD i 0)).take 1
          = [lagrangeEval F lam r fun i => c.getD i 0] := by
        have := take_set_succ (lagrangeEval F lam r fun i => c.getD i 0)
          (List.replicate lam (0 : F)) 0 (by simpa using h0)
        simpa using this
      rw [ht1] at hm
      have hm' : (recurse_u_or_v F lam (c :: rest) r).flatten
          = ((c :: rest).map fun d => lagrangeEval F lam r fun i => d.getD i 0)
            ++ List.replicate m 0 := by
        rw [key, hm]
        simp
      refine ⟨?_, ?_, ?_, ?_, ?_⟩
      · rw [key, fillFrom_length F lam _ _ 1 le_rfl h0]
        congr 1
        simp only [List.length_map, List.length_cons]
        omega
      · intro j hj
        have hj' : j < ((c :: rest).map fun d =>
            lagrangeEval F lam r fun i => d.getD i 0).length := by simpa using hj
        rw [hm', List.getD_append _ _ 0 j hj', List.getD_eq_getElem _ _ hj',
          List.getElem_map, List.getD_eq_getElem _ _ (by simpa using hj)]
      · intro j hj
        have hj' : ((c :: rest).map fun d =>
            lagrangeEval F lam r fun i => d.getD i 0).length ≤ j := by simpa using hj
        rw [hm', List.getD_append_right _ _ 0 j hj']
        exact getD_replicate_zero _ _
      · rw [key]
        exact fillFrom_chunk_lengths F lam _ _ 1 hchunklen
      · intro h
        simp at h
  · simp only [recurse_u_or_v, recurseLoop, lagrangeEval, lagrangeTableEntry,
      canonicalLagrangeDenominator, zmod31_inv_eq_pow]
    decide

/-! ## Claim C5 -/

/-- C5: `SharedRandomness::zero` returns `l − r` where `(l, r)` are the
values generated from the left and right generators at `idx`, and under
the pairwise correlation of the three helpers' generators the three
`zero` outputs sum to `0`. -/
theorem C5_prss_zero :
    (∀ (V : Type) [Sub V] (f : ℕ → V) (p : SharedRandomness) (idx : ℕ),
        SharedRandomness.zero f p idx = f (p.leftGen idx) - f (p.rightGen idx))
    ∧ (∀ (V : Type) [AddCommGroup V] (f : ℕ → V) (p1 p2 p3 : SharedRandomness) (idx : ℕ),
        p1.rightGen idx = p2.leftGen idx →
        p2.rightGen idx = p3.leftGen idx →
        p3.rightGen idx = p1.leftGen idx →
        SharedRandomness.zero f p1 idx + SharedRandomness.zero f p2 idx
          + SharedRandomness.zero f p3 idx = 0) := by
  constructor
  · intro V _ f p idx
    rfl
  · intro V _ f p1 p2 p3 idx h12 h23 h31
    simp only [SharedRandomness.zero, SharedRandomness.generate_fields]
    rw [h12, h23, h31]
    abel

/-- Witness for C5: three concretely correlated helpers over `ℤ` whose
`zero` shares sum to zero. -/
theorem C5_prss_zero_witness :
    SharedRandomness.zero (fun n => (n : ℤ)) ⟨fun _ => 1, fun _ => 2⟩ 0
      + SharedRandomness.zero (fun n => (n : ℤ)) ⟨fun _ => 2, fun _ => 3⟩ 0
      + SharedRandomness.zero (fun n => (n : ℤ)) ⟨fun _ => 3, fun _ => 1⟩ 0 = 0 :=
  C5_prss_zero.2 ℤ (fun n => (n : ℤ)) ⟨fun _ => 1, fun _ => 2⟩ ⟨fun _ => 2, fun _ => 3⟩
    ⟨fun _ => 3, fun _ => 1⟩ 0 rfl rfl rfl

/-! ## Claim C6 -/

/-- 16 little-endian bytes below 256 reassemble to a value below `2¹²⁸`. -/
theorem u128_from_le_bytes_lt (bs : List ℕ) (h : ∀ b ∈ bs, b < 256) :
    u128_from_le_bytes bs < 2 ^ 128 := by
  have hb : ∀ i, bs.getD i 0 ≤ 255 := by
    intro i
    rcases Nat.lt_or_ge i bs.length with hi | hi
    · rw [List.getD_eq_getElem _ _ hi]
      have := h _ (List.getElem_mem hi)
      omega
    · rw [List.getD_eq_default _ _ hi]
      omega
  calc u128_from_le_bytes bs
      ≤ ∑ i ∈ Finset.range 16, 255 * 2 ^ (8 * i) :=
        Finset.sum_le_sum fun i _ => Nat.mul_le_mul_right _ (hb i)
    _ < 2 ^ 128 := by
        simp [Finset.sum_range_succ]

/-- C6: `Generator::generate` is the Matyas–Meyer–Oseas value
`AES_k(LE(idx)) XOR idx` under the little-endian interpretation; it is a
deterministic pure function of the key and index, and stays inside the
`u128` range whenever the cipher emits bytes. -/
theorem C6_generator_mmo :
    (∀ (g : Generator) (idx : ℕ), g.generate idx = mmoSpec g.cipher idx)
    ∧ (∀ (g : Generator) (i j : ℕ), i = j → g.generate i = g.generate j)
    ∧ (∀ (g : Generator) (idx : ℕ), idx < 2 ^ 128 →
        (∀ bs, ∀ b ∈ g.cipher bs, b < 256) →
        g.generate idx < 2 ^ 128) := by
  refine ⟨fun g idx => rfl, fun g i j h => by rw [h], ?_⟩
  intro g idx hidx hcb
  have h1 : u128_from_le_bytes (g.cipher (u128_to_le_bytes idx)) < 2 ^ 128 :=
    u128_from_le_bytes_lt _ (hcb _)
  exact Nat.xor_lt_two_pow h1 hidx

/-- Witness for C6: a concrete cipher instance at index 5. -/
theorem C6_generator_mmo_witness :
    Generator.generate ⟨fun _ => List.replicate 16 0⟩ 5 < 2 ^ 128 :=
  C6_generator_mmo.2.2 ⟨fun _ => List.replicate 16 0⟩ 5 (by norm_num)
    (fun bs b hb => by rw [List.eq_of_mem_replicate hb]; norm_num)

/-! ## Claim C9 -/

/-- C9 counterexample: with debug assertions disabled (the repository's
release configuration — `key_exchange` guards the self-exchange only with
`debug_assert_ne!`), a self key-exchange is not refused: the call returns
a factory instead of panicking. -/
theorem C9_key_exchange_counterexample :
    (0 : ℕ) = KeyExchange.public_key (fun s => s) ⟨0⟩
    ∧ KeyExchange.key_exchange false (fun s => s) (fun s p => s * p) (fun _ i => i) ⟨0⟩ 0
      ≠ none := by
  constructor
  · rfl
  · decide

/-- C9 (amended): the self key-exchange panics exactly when debug
assertions are enabled; with a distinct peer key (or with the debug guard
compiled out) the call returns the HKDF-SHA256 factory with no salt over
the Diffie–Hellman shared secret. -/
theorem C9_key_exchange (debugAssertions : Bool) (basepointMul : ℕ → ℕ)
    (dh : ℕ → ℕ → ℕ) (hkdf : Option (List ℕ) → ℕ → ℕ)
    (kx : KeyExchange) (pk : ℕ) :
    (debugAssertions = true → pk = KeyExchange.public_key basepointMul kx →
      KeyExchange.key_exchange debugAssertions basepointMul dh hkdf kx pk = none)
    ∧ (pk ≠ KeyExchange.public_key basepointMul kx →
      KeyExchange.key_exchange debugAssertions basepointMul dh hkdf kx pk
        = some (hkdf none (dh kx.sk pk)))
    ∧ (debugAssertions = false →
      KeyExchange.key_exchange debugAssertions basepointMul dh hkdf kx pk
        = some (hkdf none (dh kx.sk pk))) := by
  refine ⟨?_, ?_, ?_⟩
  · intro hd hpk
    simp [KeyExchange.key_exchange, hd, hpk]
  · intro hne
    rw [KeyExchange.key_exchange, if_neg fun hc => hne hc.2]
  · intro hd
    subst hd
    simp [KeyExchange.key_exchange]

/-- Witness for C9: with debug assertions enabled the self key-exchange
panics. -/
theorem C9_key_exchange_witness :
    KeyExchange.key_exchange true (fun s => s) (fun s p => s * p) (fun _ i => i) ⟨3⟩ 3
      = none :=
  (C9_key_exchange true (fun s => s) (fun s p => s * p) (fun _ i => i) ⟨3⟩ 3).1 rfl rfl

/-! ## Claim C3 -/

theorem string_sub_split (p : String) :
    p ++ " stream has been consumed already"
      = (p ++ " ") ++ "stream has been consumed already" ++ "" := by
  rw [String.append_empty, String.append_assoc]
  congr 1

/-- C3: the `StreamCollection` state machine: `add_stream` on a `Ready` or
`Completed` cell panics; `add_waker` on a `Completed` cell panics with a
message containing "stream has been consumed already"; `add_waker` on a
`Ready` cell takes the stream and leaves `Completed`; `add_waker` on a
vacant cell stores the waker; both operations only move cells forward
along `Vacant → {Waiting, Ready} → Completed`; and a second receive of a
key whose stream was already taken panics. -/
theorem C3_stream_collection (K S W : Type) [DecidableEq K]
    (keyRepr : K → String) (willWake : W → W → Bool) :
    (∀ (m : K → Option (RecordsStream S W)) (key : K) (stream : S),
        ((∃ s, m key = some (.ready s)) ∨ m key = some .completed) →
        ∃ msg, add_stream keyRepr m key stream = .panicked msg)
    ∧ (∀ (m : K → Option (RecordsStream S W)) (key : K) (w : W),
        m key = some .completed →
        ∃ a b, add_waker keyRepr willWake m key w
          = .panicked (a ++ "stream has been consumed already" ++ b))
    ∧ (∀ (m : K → Option (RecordsStream S W)) (key : K) (w : W) (s : S),
        m key = some (.ready s) →
        add_waker keyRepr willWake m key w
          = .ok (Function.update m key (some .completed), some s))
    ∧ (∀ (m : K → Option (RecordsStream S W)) (key : K) (w : W),
        m key = none →
        add_waker keyRepr willWake m key w
          = .ok (Function.update m key (some (.waiting w)), none))
    ∧ (∀ (m : K → Option (RecordsStream S W)) (key : K) (stream : S) m2,
        add_stream keyRepr m key stream = .ok m2 →
        ∀ k, cellRank (m k) ≤ cellRank (m2 k))
    ∧ (∀ (m : K → Option (RecordsStream S W)) (key : K) (w : W) m2 os,
        add_waker keyRepr willWake m key w = .ok (m2, os) →
        ∀ k, cellRank (m k) ≤ cellRank (m2 k))
    ∧ (∀ (m : K → Option (RecordsStream S W)) (key : K) (w w' : W) (s : S) m2 os,
        m key = some (.ready s) →
        add_waker keyRepr willWake m key w = .ok (m2, os) →
        ∃ msg, add_waker keyRepr willWake m2 key w' = .panicked msg) := by
  refine ⟨?_, ?_, ?_, ?_, ?_, ?_, ?_⟩
  · intro m key stream h
    rcases h with ⟨s, hs⟩ | hc
    · exact ⟨keyRepr key ++ " entry state expected to be waiting, got \"Ready\"",
        by simp [add_stream, hs]⟩
    · exact ⟨keyRepr key ++ " entry state expected to be waiting, got \"Completed\"",
        by simp [add_stream, hc]⟩
  · intro m key w hc
    refine ⟨keyRepr key ++ " ", "", ?_⟩
    rw [← string_sub_split]
    simp [add_waker, hc]
  · intro m key w s hs
    simp [add_waker, hs]
  · intro m key w hv
    simp [add_waker, hv]
  · intro m key stream m2 hok k
    cases hmk : m key with
    | none =>
      simp only [add_stream, hmk] at hok
      cases hok
      by_cases hk : k = key
      · subst hk
        rw [Function.update_same, hmk]
        simp [cellRank]
      · rw [Function.update_noteq hk]
    | some rs =>
      cases rs with
      | waiting w0 =>
        simp only [add_stream, hmk] at hok
        cases hok
        by_cases hk : k = key
        · subst hk
          rw [Function.update_same, hmk]
          simp [cellRank]
        · rw [Function.update_noteq hk]
      | ready s0 => simp [add_stream, hmk] at hok
      | completed => simp [add_stream, hmk] at hok
  · intro m key w m2 os hok k
    cases hmk : m key with
    | none =>
      simp only [add_waker, hmk] at hok
      obtain ⟨rfl, rfl⟩ := hok
      by_cases hk : k = key
      · subst hk
        rw [Function.update_same, hmk]
        simp [cellRank]
      · rw [Function.update_noteq hk]
    | some rs =>
      cases rs with
      | waiting w0 =>
        simp only [add_waker, hmk] at hok
        by_cases hw : willWake w0 w
        · rw [if_pos hw] at hok
          obtain ⟨rfl, rfl⟩ := hok
          exact le_refl _
        · rw [if_neg hw] at hok
          cases hok
      | ready s0 =>
        simp only [add_waker, hmk] at hok
        obtain ⟨rfl, rfl⟩ := hok
        by_cases hk : k = key
        · subst hk
          rw [Function.update_same, hmk]
          simp [cellRank]
        · rw [Function.update_noteq hk]
      | completed => simp [add_waker, hmk] at hok
  · intro m key w w' s m2 os hs hok
    simp only [add_waker, hs] at hok
    obtain ⟨rfl, rfl⟩ := hok
    refine ⟨keyRepr key ++ " stream has been consumed already", ?_⟩
    have hm2 : Function.update m key (some (RecordsStream.completed (S := S) (W := W))) key
        = some .completed := Function.update_same _ _ _
    simp [add_waker, hm2]

/-- Witness for C3: a waker registered on a vacant key over concrete
types. -/
theorem C3_stream_collection_witness :
    @add_waker ℕ ℕ ℕ _ (fun _ => "k") (fun a b => a == b) (fun _ => none) 0 7
      = .ok (Function.update (fun _ => none) 0 (some (.waiting 7)), none) :=
  (C3_stream_collection ℕ ℕ ℕ (fun _ => "k") (fun a b => a == b)).2.2.2.1
    (fun _ => none) 0 7 rfl

/-- Witness for C2: the spec's concrete u-recursion round over `GF(31)`,
obtained from `C2_recurse_u_or_v` at window size 4. -/
theorem C2_recurse_u_or_v_witness :
    recurse_u_or_v (ZMod 31) 4
        [[0, 30, 0, 16], [0, 1, 0, 15], [0, 0, 0, 16], [0, 30, 0, 16],
         [29, 1, 1, 15], [0, 0, 1, 15], [2, 30, 30, 16], [0, 0, 30, 16]] 22
      = [[0, 0, 26, 0], [7, 18, 24, 13]] :=
  (C2_recurse_u_or_v (ZMod 31) 4 (by decide)
    [[0, 30, 0, 16], [0, 1, 0, 15], [0, 0, 0, 16], [0, 30, 0, 16],
     [29, 1, 1, 15], [0, 0, 1, 15], [2, 30, 30, 16], [0, 0, 30, 16]] 22).2

end RawIpa
